import Mathlib

/-!
# Verification of the Burrows Delta authorship-attribution pipeline

This file gives a shallow embedding of the notebook implementing Burrows
Delta authorship attribution (the `load_directory` segmenter, the
`CountVectorizer`-based vectorizer, the L1 normalizer, the
`StandardScaler(with_mean=False)` standardizer and the `Delta` classifier),
together with theorems settling the specified properties.

Python strings are modelled as `List Char` (called `PyStr`), so that the
string operations used by the source (`lower`, `split`, `replace`,
`endswith`, `os.path.splitext`, indexing) can be embedded faithfully and
reasoned about by induction.  Numeric data is modelled over `ℝ` with exact
arithmetic.
-/

set_option maxHeartbeats 1000000

/-- Python strings, modelled as lists of characters. -/
abbrev PyStr := List Char

/-- `str.lower()`.  (Lean's `Char.toLower` covers the ASCII range; the
corpus-relevant behaviour — whitespace and token boundaries are unchanged —
agrees with Python.) -/
def pyLower (s : PyStr) : PyStr := s.map Char.toLower

/-- Scanner underlying `runsBy`: `acc` holds the (reversed) run currently
being read. -/
def runsAux (p : Char → Bool) : PyStr → PyStr → List PyStr
  | [], acc => if acc = [] then [] else [acc.reverse]
  | c :: cs, acc =>
    if p c then runsAux p cs (c :: acc)
    else if acc = [] then runsAux p cs [] else acc.reverse :: runsAux p cs []

/-- Maximal runs of characters satisfying `p`; characters not satisfying `p`
separate runs and are dropped.  `runsBy (fun c => !c.isWhitespace)` is
Python's `str.split()` with no argument, and `runsBy isWordChar` is
`re.findall(r"\b\w+\b", s)`. -/
def runsBy (p : Char → Bool) (s : PyStr) : List PyStr := runsAux p s []

/-- Python `contents.split()`: split on whitespace runs, dropping empties. -/
def pySplitWs (s : PyStr) : List PyStr := runsBy (fun c => !c.isWhitespace) s

/-- Python `s.split(sep)` for a one-character separator: split at every
occurrence of `sep`, keeping empty parts. -/
def pySplitOnChar (sep : Char) : PyStr → List PyStr
  | [] => [[]]
  | c :: cs =>
    if c = sep then [] :: pySplitOnChar sep cs
    else
      match pySplitOnChar sep cs with
      | [] => [[c]]
      | r :: rs => (c :: r) :: rs

/-- Worker for `pyReplace`: at `skip = 0` it looks for an occurrence of
`pat` at the current position (emitting `repl` and skipping the rest of the
occurrence when found); a positive `skip` consumes the remaining characters
of an occurrence already replaced. -/
def pyReplaceAux (pat repl : PyStr) : PyStr → ℕ → PyStr
  | [], _ => []
  | _ :: cs, skip + 1 => pyReplaceAux pat repl cs skip
  | c :: cs, 0 =>
    if pat ≠ [] ∧ pat.isPrefixOf (c :: cs) then
      repl ++ pyReplaceAux pat repl cs (pat.length - 1)
    else
      c :: pyReplaceAux pat repl cs 0

/-- Python `s.replace(pat, repl)`: replace non-overlapping occurrences of
`pat` left to right.  (Python's behaviour for an empty `pat` is not needed
by the source, which only replaces the literal `".txt"`; an empty pattern is
mapped to the identity here.) -/
def pyReplace (s pat repl : PyStr) : PyStr := pyReplaceAux pat repl s 0

/-- Python `s.endswith(suffix)`. -/
def pyEndsWith (s suffix : PyStr) : Bool := suffix.isSuffixOf s

/-- The literal `".txt"` used by `load_directory`. -/
def txtSuffix : PyStr := ['.', 't', 'x', 't']

/-- The stem returned by `os.path.splitext(name)[0]`: the name truncated at
the last `'.'` that is preceded by some non-dot character; a name whose
characters before the last dot are all dots (e.g. `".txt"`) has no
extension and is returned whole. -/
def splitextStem (name : PyStr) : PyStr :=
  match ((List.range name.length).filter
      (fun i => name.getD i ' ' == '.' &&
        (List.range i).any (fun k => name.getD k ' ' != '.'))).getLast? with
  | some i => name.take i
  | none => name

/-- `str(n)` for a natural number, as a `PyStr`. -/
def natToStr (n : ℕ) : PyStr := (Nat.repr n).data

/-- The `while end_idx < len(lemmas)` loop of `load_directory`, with one unit
of `fuel` per iteration (the caller supplies enough fuel; with
`max_length = 0` and a non-empty token list the Python loop does not
terminate, which surfaces here as fuel exhaustion).  Per iteration, in
source order: the slice `lemmas[start_idx:end_idx]` is joined and recorded,
`author[0]` is taken (an `IndexError` on an empty stem), the title is
`filename.name.replace('.txt', '').split('_')[1]` (an `IndexError` when the
split has fewer than two parts), and the loop advances all three counters
by one step. -/
def segmentLoop (lemmas : List PyStr) (stem fname : PyStr) (L : ℕ) :
    ℕ → ℕ → ℕ → ℕ → Except String (List PyStr × List PyStr × List PyStr)
  | _, endIdx, _, 0 =>
    if endIdx < lemmas.length then Except.error "loop does not terminate"
    else Except.ok ([], [], [])
  | startIdx, endIdx, cnt, fuel + 1 =>
    if endIdx < lemmas.length then
      let doc := List.intercalate [' '] ((lemmas.drop startIdx).take (endIdx - startIdx))
      match stem with
      | [] => Except.error "IndexError: string index out of range"
      | a :: _ =>
        match (pySplitOnChar '_' (pyReplace fname txtSuffix [])).get? 1 with
        | none => Except.error "IndexError: list index out of range"
        | some t =>
          match segmentLoop lemmas stem fname L (startIdx + L) (endIdx + L) (cnt + 1) fuel with
          | Except.error e => Except.error e
          | Except.ok (ds, auths, ts) =>
            Except.ok (doc :: ds, [a] :: auths, (t ++ ['-'] ++ natToStr cnt) :: ts)
    else Except.ok ([], [], [])

/-- The per-file body of `load_directory` applied to one directory entry
`(filename, contents)`: entries not ending in `".txt"` are skipped
(`continue`), otherwise the stem is taken with `os.path.splitext`, the
contents are lowercased and whitespace-split, and the segmentation loop runs
from `start_idx = 0`, `end_idx = max_length`, `segm_cnt = 1`. -/
def processFile (fname contents : PyStr) (L : ℕ) :
    Except String (List PyStr × List PyStr × List PyStr) :=
  if pyEndsWith fname txtSuffix then
    segmentLoop (pySplitWs (pyLower contents)) (splitextStem fname) fname L 0 L 1
      ((pySplitWs (pyLower contents)).length + 1)
  else Except.ok ([], [], [])

/-- `load_directory` over a directory given as an ordered list of
`(filename, contents)` entries: the per-file results are accumulated in
order, and an exception raised while processing a file aborts the whole
call (later files are not processed and no triple is returned). -/
def loadDirectory (files : List (PyStr × PyStr)) (L : ℕ) :
    Except String (List PyStr × List PyStr × List PyStr) :=
  match files with
  | [] => Except.ok ([], [], [])
  | (fn, c) :: rest =>
    match processFile fn c L with
    | Except.error e => Except.error e
    | Except.ok (d1, a1, t1) =>
      match loadDirectory rest L with
      | Except.error e => Except.error e
      | Except.ok (d2, a2, t2) => Except.ok (d1 ++ d2, a1 ++ a2, t1 ++ t2)

/-! ## Lemmas about the segmenter -/

theorem mem_of_getLastQ {α : Type} {l : List α} {a : α} (h : l.getLast? = some a) :
    a ∈ l := by
  obtain ⟨hne, rfl⟩ := List.mem_getLast?_eq_getLast (show a ∈ l.getLast? from h)
  exact List.getLast_mem hne

/-- A filename ending in `".txt"` always has a non-empty `splitext` stem, so
`author[0]` never raises inside the loop for a `.txt` entry. -/
theorem splitextStem_ne_nil (fname : PyStr) (h : pyEndsWith fname txtSuffix = true) :
    splitextStem fname ≠ [] := by
  have hlen : txtSuffix.length ≤ fname.length :=
    (List.isSuffixOf_iff_suffix.mp h).length_le
  have hfn : fname ≠ [] := by
    intro hf
    rw [hf] at hlen
    simp [txtSuffix] at hlen
  rw [splitextStem]
  split
  · next i heq =>
    have hi : 0 < i := by
      have hmem := mem_of_getLastQ heq
      have hcond := (List.mem_filter.mp hmem).2
      rw [Bool.and_eq_true, List.any_eq_true] at hcond
      obtain ⟨x, hx, _⟩ := hcond.2
      have := List.mem_range.mp hx
      omega
    have : 0 < (fname.take i).length := by
      rw [List.length_take]
      have : 0 < fname.length := List.length_pos.mpr hfn
      omega
    exact List.ne_nil_of_length_pos this
  · exact hfn

/-- One step of the chunk-count recurrence: while the window end is inside
the token list, one more chunk is produced and the end advances by `L`. -/
theorem chunkCount_step (n e L : ℕ) (hL : 0 < L) (he : e < n) :
    (n - e + L - 1) / L = (n - (e + L) + L - 1) / L + 1 := by
  have h1 : n - e + L - 1 = (n - e - 1) + L := by omega
  rw [h1, Nat.add_div_right _ hL]
  congr 1
  rcases le_or_lt L (n - e) with h | h
  · congr 1
    omega
  · rw [Nat.div_eq_of_lt (by omega), Nat.div_eq_of_lt (by omega)]

/-- The segmentation loop of `load_directory`, run with a non-empty author
stem, a title split with a second component, and enough fuel, succeeds and
produces one document per full window strictly inside the token list. -/
theorem segmentLoop_count (lemmas : List PyStr) (stem fname : PyStr) (L : ℕ)
    (hL : 0 < L) (a : Char) (s' : PyStr) (hs : stem = a :: s') (t : PyStr)
    (ht : (pySplitOnChar '_' (pyReplace fname txtSuffix [])).get? 1 = some t) :
    ∀ fuel startIdx endIdx cnt, lemmas.length ≤ endIdx + fuel * L →
      ∃ ds auths ts,
        segmentLoop lemmas stem fname L startIdx endIdx cnt fuel =
          Except.ok (ds, auths, ts) ∧
        ds.length = (lemmas.length - endIdx + L - 1) / L := by
  subst hs
  intro fuel
  induction fuel with
  | zero =>
    intro startIdx endIdx cnt hfuel
    have hend : ¬ endIdx < lemmas.length := by omega
    rw [segmentLoop, if_neg hend]
    refine ⟨[], [], [], rfl, ?_⟩
    have h0 : lemmas.length - endIdx = 0 := by omega
    rw [h0, Nat.div_eq_of_lt (by omega)]
    rfl
  | succ f ih =>
    intro startIdx endIdx cnt hfuel
    by_cases hend : endIdx < lemmas.length
    · have hfuel' : lemmas.length ≤ (endIdx + L) + f * L := by
        rw [Nat.succ_mul] at hfuel
        omega
      obtain ⟨ds, auths, ts, hrec, hcount⟩ := ih (startIdx + L) (endIdx + L) (cnt + 1) hfuel'
      rw [segmentLoop, if_pos hend, ht, hrec]
      refine ⟨_, _, _, rfl, ?_⟩
      simp only [List.length_cons, hcount]
      rw [chunkCount_step lemmas.length endIdx L hL hend]
    · rw [segmentLoop, if_neg hend]
      refine ⟨[], [], [], rfl, ?_⟩
      have h0 : lemmas.length - endIdx = 0 := by omega
      rw [h0, Nat.div_eq_of_lt (by omega)]
      rfl

/-- C2 (amended): for a positive chunk length `L` and a `.txt` entry whose
filename yields a title (an underscore-delimited second component), the
per-file loop of `load_directory` succeeds and produces exactly
`(T - 1) / L` documents, where `T` is the whitespace-token count of the
lowercased contents.  This equals `⌊T / L⌋` whenever `L` does not divide
`T`, but equals `T / L - 1` when `T` is a positive multiple of `L`: the
loop condition `end_idx < len(lemmas)` also discards the final window that
exactly reaches the end of the token sequence.  In particular a source
with at most `L` tokens yields zero documents, not an error. -/
theorem processFile_chunk_count (fname contents : PyStr) (L : ℕ) (hL : 0 < L)
    (hext : pyEndsWith fname txtSuffix = true)
    (hus : 1 < (pySplitOnChar '_' (pyReplace fname txtSuffix [])).length) :
    ∃ ds auths ts,
      processFile fname contents L = Except.ok (ds, auths, ts) ∧
      ds.length = ((pySplitWs (pyLower contents)).length - 1) / L := by
  obtain ⟨a, s', hs⟩ := List.exists_cons_of_ne_nil (splitextStem_ne_nil fname hext)
  have ht : (pySplitOnChar '_' (pyReplace fname txtSuffix [])).get? 1 =
      some ((pySplitOnChar '_' (pyReplace fname txtSuffix [])).get ⟨1, hus⟩) :=
    List.get?_eq_get hus
  have hfuel : (pySplitWs (pyLower contents)).length ≤
      L + ((pySplitWs (pyLower contents)).length + 1) * L := by
    have h1 : ((pySplitWs (pyLower contents)).length + 1) * 1 ≤
        ((pySplitWs (pyLower contents)).length + 1) * L :=
      Nat.mul_le_mul_left _ hL
    omega
  obtain ⟨ds, auths, ts, hloop, hcount⟩ :=
    segmentLoop_count (pySplitWs (pyLower contents)) (splitextStem fname) fname L hL
      a s' hs _ ht ((pySplitWs (pyLower contents)).length + 1) 0 L 1 hfuel
  refine ⟨ds, auths, ts, ?_, ?_⟩
  · rw [processFile, if_pos hext]
    exact hloop
  · rw [hcount]
    rcases le_or_lt L (pySplitWs (pyLower contents)).length with h | h
    · congr 1
      omega
    · rw [Nat.div_eq_of_lt (by omega), Nat.div_eq_of_lt (by omega)]

/-- Witness for `processFile_chunk_count`: the file `"a_b.txt"` with
contents `"x y z"` (three tokens) and chunk length 2 produces
`(3 - 1) / 2 = 1` document. -/
theorem processFile_chunk_count_witness :
    0 < 2 ∧ pyEndsWith ['a', '_', 'b', '.', 't', 'x', 't'] txtSuffix = true ∧
    1 < (pySplitOnChar '_'
      (pyReplace ['a', '_', 'b', '.', 't', 'x', 't'] txtSuffix [])).length ∧
    ∃ ds auths ts,
      processFile ['a', '_', 'b', '.', 't', 'x', 't'] ['x', ' ', 'y', ' ', 'z'] 2 =
        Except.ok (ds, auths, ts) ∧
      ds.length = ((pySplitWs (pyLower ['x', ' ', 'y', ' ', 'z'])).length - 1) / 2 :=
  ⟨by decide, by decide, by decide,
    processFile_chunk_count ['a', '_', 'b', '.', 't', 'x', 't']
      ['x', ' ', 'y', ' ', 'z'] 2 (by decide) (by decide) (by decide)⟩

/-- Counterexample to C2 as stated: the file `"a_b.txt"` with contents
`"x y"` has exactly `T = 2 = L` tokens; the claim demands
`⌊T / L⌋ = 1` document, but the loop condition `end_idx < len(lemmas)`
discards the window that exactly reaches the end, so the code produces 0
documents. -/
theorem processFile_exact_multiple_counterexample :
    processFile ['a', '_', 'b', '.', 't', 'x', 't'] ['x', ' ', 'y'] 2 =
      Except.ok ([], [], []) ∧
    ([] : List PyStr).length ≠ 2 / 2 := by
  constructor
  · rfl
  · decide

/-- Every character emitted by the replacement worker comes from the input
string or from the replacement string. -/
theorem mem_pyReplaceAux (pat repl : PyStr) (c : Char) :
    ∀ (s : PyStr) (k : ℕ), c ∈ pyReplaceAux pat repl s k → c ∈ s ∨ c ∈ repl := by
  intro s
  induction s with
  | nil =>
    intro k h
    simp [pyReplaceAux] at h
  | cons x cs ih =>
    intro k h
    match k with
    | k' + 1 =>
      rcases ih k' h with h1 | h1
      · exact Or.inl (List.mem_cons_of_mem _ h1)
      · exact Or.inr h1
    | 0 =>
      rw [pyReplaceAux] at h
      split at h
      · rcases List.mem_append.mp h with h1 | h1
        · exact Or.inr h1
        · rcases ih _ h1 with h2 | h2
          · exact Or.inl (List.mem_cons_of_mem _ h2)
          · exact Or.inr h2
      · rcases List.mem_cons.mp h with h1 | h1
        · exact Or.inl (h1 ▸ List.mem_cons_self x cs)
        · rcases ih _ h1 with h2 | h2
          · exact Or.inl (List.mem_cons_of_mem _ h2)
          · exact Or.inr h2

/-- Splitting a string that does not contain the separator yields the
one-element list holding the whole string (Python `s.split(sep)`). -/
theorem pySplitOnChar_eq_single (sep : Char) :
    ∀ t : PyStr, sep ∉ t → pySplitOnChar sep t = [t] := by
  intro t
  induction t with
  | nil => intro _; rfl
  | cons c cs ih =>
    intro h
    have hc : ¬ c = sep := by
      intro he
      exact h (he ▸ List.mem_cons_self c cs)
    have hcs : sep ∉ cs := fun hm => h (List.mem_cons_of_mem _ hm)
    rw [pySplitOnChar, if_neg hc, ih hcs]

/-- C10: a `.txt` directory entry whose filename contains no underscore and
whose contents have strictly more than `chunk_length` whitespace tokens
makes `load_directory` raise `IndexError` (from
`filename.name.replace('.txt', '').split('_')[1]`) instead of returning the
documents/authors/titles triple; the whole call aborts regardless of any
further directory entries. -/
theorem load_no_underscore_error (fname contents : PyStr) (L : ℕ)
    (hext : pyEndsWith fname txtSuffix = true)
    (hus : '_' ∉ fname)
    (hlen : L < (pySplitWs (pyLower contents)).length) :
    processFile fname contents L =
      Except.error "IndexError: list index out of range" ∧
    ∀ rest, loadDirectory ((fname, contents) :: rest) L =
      Except.error "IndexError: list index out of range" := by
  have hrep : '_' ∉ pyReplace fname txtSuffix [] := by
    intro hm
    rcases mem_pyReplaceAux txtSuffix [] '_' fname 0 hm with h1 | h1
    · exact hus h1
    · simp at h1
  have hparts : pySplitOnChar '_' (pyReplace fname txtSuffix []) =
      [pyReplace fname txtSuffix []] :=
    pySplitOnChar_eq_single '_' _ hrep
  obtain ⟨a, s', hs⟩ := List.exists_cons_of_ne_nil (splitextStem_ne_nil fname hext)
  have hmain : processFile fname contents L =
      Except.error "IndexError: list index out of range" := by
    rw [processFile, if_pos hext, segmentLoop, if_pos hlen, hs, hparts]
    rfl
  refine ⟨hmain, fun rest => ?_⟩
  rw [loadDirectory, hmain]

/-- Witness for `load_no_underscore_error`: the file `"ab.txt"` (no
underscore) with two tokens of contents and chunk length 1. -/
theorem load_no_underscore_error_witness :
    pyEndsWith ['a', 'b', '.', 't', 'x', 't'] txtSuffix = true ∧
    '_' ∉ (['a', 'b', '.', 't', 'x', 't'] : PyStr) ∧
    1 < (pySplitWs (pyLower ['x', ' ', 'y'])).length ∧
    processFile ['a', 'b', '.', 't', 'x', 't'] ['x', ' ', 'y'] 1 =
      Except.error "IndexError: list index out of range" :=
  ⟨by decide, by decide, by decide,
    (load_no_underscore_error ['a', 'b', '.', 't', 'x', 't'] ['x', ' ', 'y'] 1
      (by decide) (by decide) (by decide)).1⟩

/-! ## The vectorizer -/

/-- A `\w` character of the vectorizer's token pattern `(?u)\b\w+\b`. -/
def isWordChar (c : Char) : Bool := c.isAlphanum || c = '_'

/-- The token stream the `CountVectorizer` counts over: the document is
lowercased (the vectorizer's default) and `re.findall(r"(?u)\b\w+\b", doc)`
extracts the maximal runs of word characters. -/
def tokenizeWords (doc : PyStr) : List PyStr := runsBy isWordChar (pyLower doc)

/-- The column a fixed vocabulary assigns to a token: the position of its
first occurrence, or `none` for an out-of-vocabulary token.  (`sklearn`
materialises the supplied vocabulary as a token-to-column dict and rejects
duplicated vocabularies, matching the `Nodup` hypotheses below.) -/
def vocabIdx (vocab : List PyStr) (t : PyStr) : Option ℕ :=
  match vocab with
  | [] => none
  | w :: ws => if w = t then some 0 else (vocabIdx ws t).map (· + 1)

/-- Increment position `j` of a count row. -/
def incr : List ℕ → ℕ → List ℕ
  | [], _ => []
  | x :: xs, 0 => (x + 1) :: xs
  | x :: xs, j + 1 => x :: incr xs j

/-- One row of `vectorizer.transform`: starting from an all-zero row of
width `V`, walk the document's token stream and increment the column of
each token found in the vocabulary; out-of-vocabulary tokens change
nothing. -/
def transformRow (vocab : List PyStr) (doc : PyStr) : List ℕ :=
  (tokenizeWords doc).foldl
    (fun v t =>
      match vocabIdx vocab t with
      | some j => incr v j
      | none => v)
    (List.replicate vocab.length 0)

/-- `vectorizer.transform(documents).toarray()`: the N×V count matrix. -/
def cvTransform (vocab : List PyStr) (docs : List PyStr) : List (List ℕ) :=
  docs.map (transformRow vocab)

/-! ## Lemmas about the vectorizer -/

theorem getD_eq_get {α : Type} (l : List α) (d : α) (i : ℕ) (h : i < l.length) :
    l.getD i d = l.get ⟨i, h⟩ := by
  induction l generalizing i with
  | nil => simp at h
  | cons x xs ih =>
    cases i with
    | zero => rfl
    | succ n => exact ih n (by simpa using h)

theorem getD_map {α β : Type} (f : α → β) (l : List α) (i : ℕ) (d : α) (d' : β)
    (h : i < l.length) : (l.map f).getD i d' = f (l.getD i d) := by
  induction l generalizing i with
  | nil => simp at h
  | cons x xs ih =>
    cases i with
    | zero => rfl
    | succ n => exact ih n (by simpa using h)

theorem getD_replicate_self {α : Type} (n : ℕ) (a : α) (i : ℕ) :
    (List.replicate n a).getD i a = a := by
  induction n generalizing i with
  | zero => rfl
  | succ m ih =>
    cases i with
    | zero => rfl
    | succ k => exact ih k

theorem incr_length (v : List ℕ) (j : ℕ) : (incr v j).length = v.length := by
  induction v generalizing j with
  | nil => rfl
  | cons x xs ih =>
    cases j with
    | zero => rfl
    | succ k => simp [incr, ih]

theorem incr_getD (v : List ℕ) (j j' : ℕ) (h : j' < v.length) :
    (incr v j).getD j' 0 = v.getD j' 0 + if j' = j then 1 else 0 := by
  induction v generalizing j j' with
  | nil => simp at h
  | cons x xs ih =>
    cases j with
    | zero =>
      cases j' with
      | zero => simp [incr]
      | succ k => simp [incr]
    | succ m =>
      cases j' with
      | zero => simp [incr]
      | succ k =>
        have : (incr (x :: xs) (m + 1)).getD (k + 1) 0 = (incr xs m).getD k 0 := rfl
        rw [this, ih m k (by simpa using h)]
        simp

theorem vocabIdx_some (vocab : List PyStr) (t : PyStr) (k : ℕ)
    (h : vocabIdx vocab t = some k) : k < vocab.length ∧ vocab.getD k [] = t := by
  induction vocab generalizing k with
  | nil => simp [vocabIdx] at h
  | cons w ws ih =>
    rw [vocabIdx] at h
    split at h
    · next heq =>
      cases h
      exact ⟨by simp, heq⟩
    · rcases Option.map_eq_some'.mp h with ⟨k', hk', rfl⟩
      obtain ⟨h1, h2⟩ := ih k' hk'
      exact ⟨by simpa using h1, h2⟩

theorem vocabIdx_none (vocab : List PyStr) (t : PyStr)
    (h : vocabIdx vocab t = none) : t ∉ vocab := by
  induction vocab with
  | nil => simp
  | cons w ws ih =>
    rw [vocabIdx] at h
    split at h
    · simp at h
    · next hne =>
      intro hm
      rcases List.mem_cons.mp hm with h1 | h1
      · exact hne h1.symm
      · exact ih (Option.map_eq_none'.mp h) h1

theorem vocabIdx_getD (vocab : List PyStr) (hnd : vocab.Nodup) (j : ℕ)
    (h : j < vocab.length) : vocabIdx vocab (vocab.getD j []) = some j := by
  induction vocab generalizing j with
  | nil => simp at h
  | cons w ws ih =>
    cases j with
    | zero => simp [vocabIdx]
    | succ k =>
      have hk : k < ws.length := by simpa using h
      have hne : ¬ w = (w :: ws).getD (k + 1) [] := by
        intro he
        have hmem : (w :: ws).getD (k + 1) [] ∈ ws := by
          rw [getD_eq_get (w :: ws) [] (k + 1) h]
          have : (w :: ws).get ⟨k + 1, h⟩ = ws.get ⟨k, hk⟩ := rfl
          rw [this]
          exact List.get_mem ws _ _
        exact (List.nodup_cons.mp hnd).1 (he ▸ hmem)
      rw [vocabIdx, if_neg hne]
      have : (w :: ws).getD (k + 1) [] = ws.getD k [] := rfl
      rw [this, ih (List.nodup_cons.mp hnd).2 k hk]
      rfl

theorem getD_mem (l : List PyStr) (i : ℕ) (h : i < l.length) : l.getD i [] ∈ l := by
  rw [getD_eq_get l [] i h]
  exact List.get_mem l _ _

theorem nodup_getD_inj (l : List PyStr) (hnd : l.Nodup) (i j : ℕ)
    (hi : i < l.length) (hj : j < l.length) (h : l.getD i [] = l.getD j []) :
    i = j := by
  rw [getD_eq_get l [] i hi, getD_eq_get l [] j hj] at h
  have := List.nodup_iff_injective_get.mp hnd h
  exact congrArg Fin.val this

/-- Number of occurrences of the token `a` in a token stream. -/
def countOcc (a : PyStr) : List PyStr → ℕ
  | [] => 0
  | t :: ts => countOcc a ts + if t = a then 1 else 0

/-- Walking a token stream and incrementing the column of each
in-vocabulary token computes, per column, the number of occurrences of that
column's vocabulary token in the stream. -/
theorem foldl_count (vocab : List PyStr) (hnd : vocab.Nodup) (j : ℕ)
    (hj : j < vocab.length) :
    ∀ (toks : List PyStr) (v : List ℕ), v.length = vocab.length →
      (toks.foldl
        (fun v t =>
          match vocabIdx vocab t with
          | some k => incr v k
          | none => v) v).getD j 0 =
        v.getD j 0 + countOcc (vocab.getD j []) toks := by
  intro toks
  induction toks with
  | nil =>
    intro v _
    simp [countOcc]
  | cons t ts ih =>
    intro v hv
    rw [List.foldl_cons]
    have hstep : (match vocabIdx vocab t with
        | some k => incr v k
        | none => v).length = vocab.length := by
      cases hvi : vocabIdx vocab t with
      | none => simpa using hv
      | some k => simpa [incr_length] using hv
    rw [ih _ hstep, countOcc]
    cases hvi : vocabIdx vocab t with
    | none =>
      have hne : ¬ t = vocab.getD j [] := by
        intro he
        exact vocabIdx_none vocab t hvi (he ▸ getD_mem vocab j hj)
      simp only [hvi]
      rw [if_neg hne]
      omega
    | some k =>
      obtain ⟨hk, hgk⟩ := vocabIdx_some vocab t k hvi
      simp only [hvi]
      rw [incr_getD v k j (hv ▸ hj)]
      by_cases hjk : j = k
      · subst hjk
        rw [if_pos rfl, if_pos hgk.symm]
        omega
      · have hne : ¬ t = vocab.getD j [] := by
          intro he
          exact hjk (nodup_getD_inj vocab hnd j k hj hk (he ▸ hgk).symm)
        rw [if_neg hjk, if_neg hne]
        omega

/-- C7: the vectorizer's transform emits one row per document in document
order; entry [i, j] equals the number of occurrences of vocabulary token j
in document i's token stream, so tokens outside the vocabulary change no
entry and the column order always follows the supplied vocabulary order
(also for documents never seen before — the vocabulary is supplied, not
learned); an empty document yields an all-zero row. -/
theorem cvTransform_counts (vocab : List PyStr) (docs : List PyStr)
    (hnd : vocab.Nodup) :
    (cvTransform vocab docs).length = docs.length ∧
    (∀ i j, i < docs.length → j < vocab.length →
      ((cvTransform vocab docs).getD i []).getD j 0 =
        countOcc (vocab.getD j []) (tokenizeWords (docs.getD i []))) ∧
    (∀ i, i < docs.length → docs.getD i [] = [] →
      (cvTransform vocab docs).getD i [] = List.replicate vocab.length 0) := by
  refine ⟨by simp [cvTransform], ?_, ?_⟩
  · intro i j hi hj
    rw [cvTransform, getD_map (transformRow vocab) docs i [] [] hi,
      transformRow,
      foldl_count vocab hnd j hj (tokenizeWords (docs.getD i []))
        (List.replicate vocab.length 0) (by simp)]
    rw [getD_replicate_self]
    simp
  · intro i hi hdoc
    rw [cvTransform, getD_map (transformRow vocab) docs i [] [] hi, hdoc]
    rfl

/-- Witness for `cvTransform_counts`: the vocabulary `["a", "b"]` and the
single document `"b a b"`; column 1 of row 0 counts the two occurrences of
`"b"`. -/
theorem cvTransform_counts_witness :
    ([['a'], ['b']] : List PyStr).Nodup ∧
    ((cvTransform [['a'], ['b']] [['b', ' ', 'a', ' ', 'b']]).getD 0 []).getD 1 0 =
      countOcc ['b'] (tokenizeWords (([['b', ' ', 'a', ' ', 'b']] : List PyStr).getD 0 [])) :=
  ⟨by decide,
    (cvTransform_counts [['a'], ['b']] [['b', ' ', 'a', ' ', 'b']] (by decide)).2.1
      0 1 (by decide) (by decide)⟩

/-! ## The numeric pipeline: normalizer, standardizer, Delta classifier

The float arrays of the source are modelled over `ℝ` with exact
arithmetic; the divide-by-zero guards of the source (`sklearn`'s
zero-norm and zero-scale replacements) appear as the explicit `1`
fallbacks below, so no division by zero is ever performed. -/

noncomputable section

/-- An N×V matrix of feature values, as a list of rows. -/
abbrev Mat := List (List ℝ)

/-- The L1 norm of a row — the sum of absolute values — as computed inside
`preprocessing.normalize(X, norm='l1')`. -/
def l1norm (v : List ℝ) : ℝ := (v.map (fun x => |x|)).sum

/-- The divisor `preprocessing.normalize` uses for a row: its L1 norm,
with zero norms replaced by 1 (`norms[norms == 0.0] = 1.0` in sklearn), so
an all-zero row is left unchanged instead of producing NaNs. -/
def normDivisor (v : List ℝ) : ℝ := if l1norm v = 0 then 1 else l1norm v

/-- One row of `preprocessing.normalize(X, norm='l1')`. -/
def normalizeRow (v : List ℝ) : List ℝ := v.map (fun x => x / normDivisor v)

/-- `preprocessing.normalize(X, norm='l1')`, applied row-wise. -/
def normalizeMat (X : Mat) : Mat := X.map normalizeRow

/-- Column `j` of a matrix. -/
def col (X : Mat) (j : ℕ) : List ℝ := X.map (fun r => r.getD j 0)

/-- The arithmetic mean of a list of reals. -/
def mean (l : List ℝ) : ℝ := l.sum / l.length

/-- Population variance (denominator `n`, not `n - 1`), as computed by
`StandardScaler` (`ddof = 0`). -/
def popVar (l : List ℝ) : ℝ := (l.map (fun x => (x - mean l) ^ 2)).sum / l.length

/-- Population standard deviation. -/
def popStd (l : List ℝ) : ℝ := Real.sqrt (popVar l)

/-- sklearn's `_handle_zeros_in_scale`: a zero scale (a zero-variance
feature) is replaced by 1, leaving that feature unchanged under
division. -/
def handleZeros (s : ℝ) : ℝ := if s = 0 then 1 else s

/-- The per-feature `scale_` computed by
`StandardScaler(with_mean=False).fit`: the population standard deviation
of each column, with zeros replaced by 1. -/
def fitScale (X : Mat) : List ℝ :=
  (List.range (X.headD []).length).map (fun j => handleZeros (popStd (col X j)))

/-- `scaler.transform` with `with_mean=False`: each row is divided
entrywise by the per-feature scale captured at fit time; no mean is
subtracted. -/
def scalerTransform (scale : List ℝ) (X : Mat) : Mat :=
  X.map (fun r => List.zipWith (fun x s => x / s) r scale)

/-- The fitted state of a `Delta` instance: the label array `self.train_y`,
the fitted scaler's `scale_`, and the standardized reference matrix
`self.train_X`. -/
structure Delta where
  train_y : List String
  scale : List ℝ
  train_X : Mat

/-- `Delta.fit(X, y)`: stores `np.array(y)` as-is — its length is never
compared against the number of rows of `X` — then fits a
`StandardScaler(with_mean=False)` on `X` and stores the standardized `X`.
The only failure path is `sklearn`'s input validation inside
`fit_transform`, which rejects a matrix with zero samples (or zero
features). -/
def Delta.fit (X : Mat) (y : List String) : Except String Delta :=
  if X.length = 0 ∨ (X.headD []).length = 0 then
    Except.error "ValueError: 0 sample(s) or 0 feature(s)"
  else
    Except.ok ⟨y, fitScale X, scalerTransform (fitScale X) X⟩

/-- `np.argmin` over one row of the distance matrix: the index of the
first occurrence of the minimum (`numpy` documents that ties resolve to
the first occurrence).  The source never applies it to an empty row
(`fit` rejects `N = 0`); the `[]` case is an arbitrary total
completion. -/
def idxmin : List ℝ → ℕ
  | [] => 0
  | x :: xs =>
    match xs with
    | [] => 0
    | _ :: _ => if x ≤ xs.getD (idxmin xs) 0 then 0 else idxmin xs + 1

/-- The city-block (L1/Manhattan) metric, `predict`'s default
(`metric='cityblock'`). -/
def cityblock (u v : List ℝ) : ℝ := (List.zipWith (fun a b => |a - b|) u v).sum

/-- `Delta.predict(X, metric)`: standardizes the query matrix with the
stored scaler, builds the M×N pairwise distance matrix
`scidist.cdist(X, self.train_X, metric)`, and returns
`self.train_y[np.argmin(dists, axis=1)]`.  The result is paired with the
state of the instance at method exit: the body only rebinds its local `X`
and allocates the distance matrix — it never assigns to `self` — so the
outgoing state is the incoming one.  The label lookup is modelled total
with a default (the claims below guard the index range, which holds
whenever `fit` received one label per reference row). -/
def Delta.predict (s : Delta) (X : Mat) (metric : List ℝ → List ℝ → ℝ) :
    List String × Delta :=
  let Xt := scalerTransform s.scale X
  let dists := Xt.map (fun q => s.train_X.map (fun r => metric q r))
  (dists.map (fun drow => s.train_y.getD (idxmin drow) ""), s)

end

/-! ## Generic list-indexing helpers -/

theorem getD_mem_of_lt {α : Type} (l : List α) (d : α) (i : ℕ) (h : i < l.length) :
    l.getD i d ∈ l := by
  rw [getD_eq_get l d i h]
  exact List.get_mem l _ _

theorem getD_zipWith {α β γ : Type} (f : α → β → γ) (l1 : List α) (l2 : List β)
    (j : ℕ) (d1 : α) (d2 : β) (d : γ) (h1 : j < l1.length) (h2 : j < l2.length) :
    (List.zipWith f l1 l2).getD j d = f (l1.getD j d1) (l2.getD j d2) := by
  induction l1 generalizing l2 j with
  | nil => simp at h1
  | cons x xs ih =>
    cases l2 with
    | nil => simp at h2
    | cons y ys =>
      cases j with
      | zero => rfl
      | succ k => exact ih ys k (by simpa using h1) (by simpa using h2)

theorem getD_range (n i : ℕ) (h : i < n) : (List.range n).getD i 0 = i := by
  rw [getD_eq_get (List.range n) 0 i (by simpa using h)]
  exact List.get_range _ _

/-! ## Lemmas about `idxmin` (`np.argmin`) -/

theorem idxmin_lt_length : ∀ (l : List ℝ), l ≠ [] → idxmin l < l.length := by
  intro l
  induction l with
  | nil => intro h; exact absurd rfl h
  | cons x xs ih =>
    intro _
    cases xs with
    | nil => simp [idxmin]
    | cons y ys =>
      rw [idxmin]
      split
      · simp
      · have := ih (List.cons_ne_nil y ys)
        simpa using Nat.succ_lt_succ this

theorem idxmin_le (l : List ℝ) : ∀ k, k < l.length → l.getD (idxmin l) 0 ≤ l.getD k 0 := by
  induction l with
  | nil => intro k hk; simp at hk
  | cons x xs ih =>
    intro k hk
    cases xs with
    | nil =>
      cases k with
      | zero => simp [idxmin]
      | succ k' => simp at hk
    | cons y ys =>
      rw [idxmin]
      split
      · next h =>
        cases k with
        | zero => simp
        | succ k' =>
          have : (x :: y :: ys).getD 0 0 = x := rfl
          calc (x :: y :: ys).getD 0 0 = x := rfl
            _ ≤ (y :: ys).getD (idxmin (y :: ys)) 0 := h
            _ ≤ (y :: ys).getD k' 0 := ih k' (by simpa using hk)
            _ = (x :: y :: ys).getD (k' + 1) 0 := rfl
      · next h =>
        push_neg at h
        cases k with
        | zero =>
          show (y :: ys).getD (idxmin (y :: ys)) 0 ≤ x
          exact le_of_lt h
        | succ k' =>
          show (y :: ys).getD (idxmin (y :: ys)) 0 ≤ (y :: ys).getD k' 0
          exact ih k' (by simpa using hk)

theorem idxmin_first (l : List ℝ) :
    ∀ k, k < idxmin l → l.getD (idxmin l) 0 < l.getD k 0 := by
  induction l with
  | nil => intro k hk; simp [idxmin] at hk
  | cons x xs ih =>
    intro k hk
    cases xs with
    | nil => simp [idxmin] at hk
    | cons y ys =>
      rw [idxmin] at hk ⊢
      split at hk
      · simp at hk
      · next h =>
        push_neg at h
        rw [if_neg (not_le.mpr h)]
        cases k with
        | zero => exact h
        | succ k' =>
          show (y :: ys).getD (idxmin (y :: ys)) 0 < (y :: ys).getD k' 0
          exact ih k' (Nat.lt_of_succ_lt_succ hk)

/-! ## Lemmas about the normalizer -/

theorem l1norm_of_nonneg (v : List ℝ) (h : ∀ x ∈ v, 0 ≤ x) : l1norm v = v.sum := by
  induction v with
  | nil => rfl
  | cons x xs ih =>
    rw [l1norm, List.map_cons, List.sum_cons,
      abs_of_nonneg (h x (List.mem_cons_self x xs))]
    rw [show ((xs.map fun y => |y|).sum) = l1norm xs from rfl,
      ih (fun y hy => h y (List.mem_cons_of_mem _ hy)), List.sum_cons]

theorem sum_map_div (v : List ℝ) (s : ℝ) :
    (v.map (fun x => x / s)).sum = v.sum / s := by
  induction v with
  | nil => simp
  | cons x xs ih =>
    rw [List.map_cons, List.sum_cons, ih, List.sum_cons, add_div]

/-- C6: on a non-negative, non-zero count vector the L1 normalizer divides
each entry by the sum of all entries and the output sums to 1; and a
non-zero vector already of unit L1 norm is a fixed point of
normalization. -/
theorem normalize_l1 :
    (∀ v : List ℝ, (∀ x ∈ v, 0 ≤ x) → v.sum ≠ 0 →
      normalizeRow v = v.map (fun x => x / v.sum) ∧ (normalizeRow v).sum = 1) ∧
    (∀ v : List ℝ, l1norm v = 1 → normalizeRow v = v) := by
  constructor
  · intro v hpos hsum
    have hl1 : l1norm v = v.sum := l1norm_of_nonneg v hpos
    have hdiv : normDivisor v = v.sum := by rw [normDivisor, hl1, if_neg hsum]
    constructor
    · rw [normalizeRow, hdiv]
    · rw [normalizeRow, hdiv, sum_map_div, div_self hsum]
  · intro v h1
    have hdiv : normDivisor v = 1 := by
      rw [normDivisor, h1, if_neg one_ne_zero]
    rw [normalizeRow, hdiv]
    have hfun : (fun x : ℝ => x / 1) = fun x => x := by
      funext x
      exact div_one x
    rw [hfun, List.map_id']

/-- Witness for `normalize_l1`: the unit-norm vector `[1]` is a fixed
point. -/
theorem normalize_l1_witness :
    l1norm [(1:ℝ)] = 1 ∧ normalizeRow [(1:ℝ)] = [(1:ℝ)] := by
  have h : l1norm [(1:ℝ)] = 1 := by
    rw [l1norm, List.map_cons, List.map_nil, List.sum_cons, List.sum_nil,
      abs_one, add_zero]
  exact ⟨h, normalize_l1.2 [(1:ℝ)] h⟩

/-! ## Lemmas about the standardizer -/

theorem popVar_nonneg (l : List ℝ) : 0 ≤ popVar l := by
  rw [popVar]
  apply div_nonneg
  · apply List.sum_nonneg
    intro x hx
    rcases List.mem_map.mp hx with ⟨y, _, rfl⟩
    positivity
  · positivity

theorem handleZeros_ne_zero (s : ℝ) : handleZeros s ≠ 0 := by
  rw [handleZeros]
  split
  · exact one_ne_zero
  · assumption

theorem handleZeros_popStd (c : List ℝ) :
    handleZeros (popStd c) = if popVar c = 0 then 1 else popStd c := by
  rw [handleZeros, popStd]
  by_cases h : popVar c = 0
  · rw [if_pos (by rw [h, Real.sqrt_zero]), if_pos h]
  · rw [if_neg h, if_neg]
    intro hs
    have h0 : popVar c ≤ 0 := Real.sqrt_eq_zero'.mp hs
    exact h (le_antisymm h0 (popVar_nonneg c))

theorem fitScale_length (X : Mat) : (fitScale X).length = (X.headD []).length := by
  simp [fitScale]

theorem fitScale_getD (X : Mat) (j : ℕ) (hj : j < (X.headD []).length) :
    (fitScale X).getD j 0 = handleZeros (popStd (col X j)) := by
  rw [fitScale,
    getD_map _ (List.range (X.headD []).length) j 0 0 (by simpa using hj),
    getD_range _ _ hj]

theorem scalerTransform_entry (X : Mat) (scale : List ℝ) (i j : ℕ)
    (hi : i < X.length) (hjr : j < (X.getD i []).length) (hjs : j < scale.length) :
    ((scalerTransform scale X).getD i []).getD j 0 =
      (X.getD i []).getD j 0 / scale.getD j 0 := by
  rw [scalerTransform, getD_map _ X i [] [] hi,
    getD_zipWith _ _ _ j 0 0 0 hjr hjs]

/-- C4: the standardizer fitted inside `Delta.fit` subtracts no mean and
scales each feature by the population (not sample) standard deviation of
its column over the training rows: every standardized entry equals
`X[i][j]` divided by the population standard deviation of column `j`, with
zero-variance columns left unchanged through a scale of 1. -/
theorem Delta.fit_standardizes (X : Mat) (y : List String) (V i j : ℕ)
    (hrect : ∀ r ∈ X, r.length = V) (hX : X ≠ []) (hi : i < X.length)
    (hj : j < V) :
    ∃ s, Delta.fit X y = Except.ok s ∧
      s.scale.getD j 0 = (if popVar (col X j) = 0 then 1 else popStd (col X j)) ∧
      (s.train_X.getD i []).getD j 0 =
        (X.getD i []).getD j 0 /
          (if popVar (col X j) = 0 then 1 else popStd (col X j)) := by
  have hhead : (X.headD []).length = V := by
    cases X with
    | nil => exact absurd rfl hX
    | cons r rs => exact hrect r (List.mem_cons_self r rs)
  have hcond : ¬ (X.length = 0 ∨ (X.headD []).length = 0) := by
    push_neg
    refine ⟨fun h0 => hX (List.length_eq_zero.mp h0), ?_⟩
    rw [hhead]
    omega
  refine ⟨⟨y, fitScale X, scalerTransform (fitScale X) X⟩, ?_, ?_, ?_⟩
  · rw [Delta.fit, if_neg hcond]
  · show (fitScale X).getD j 0 = _
    rw [fitScale_getD X j (by rw [hhead]; exact hj), handleZeros_popStd]
  · show ((scalerTransform (fitScale X) X).getD i []).getD j 0 = _
    rw [scalerTransform_entry X (fitScale X) i j hi
        (by rw [hrect (X.getD i []) (getD_mem_of_lt X [] i hi)]; exact hj)
        (by rw [fitScale_length, hhead]; exact hj),
      fitScale_getD X j (by rw [hhead]; exact hj), handleZeros_popStd]

/-- Witness for `Delta.fit_standardizes`: fitting on the 2×1 matrix
`[[2], [2]]` (a zero-variance column) succeeds. -/
theorem Delta_fit_standardizes_witness :
    (∀ r ∈ ([[(2:ℝ)], [2]] : Mat), r.length = 1) ∧
    ∃ s, Delta.fit [[(2:ℝ)], [2]] ([] : List String) = Except.ok s := by
  have hrect : ∀ r ∈ ([[(2:ℝ)], [2]] : Mat), r.length = 1 := by
    intro r hr
    rcases List.mem_cons.mp hr with rfl | hr
    · rfl
    · rcases List.mem_cons.mp hr with rfl | hr
      · rfl
      · simp at hr
  obtain ⟨s, hs, _, _⟩ :=
    Delta.fit_standardizes [[(2:ℝ)], [2]] [] 1 0 0 hrect (by simp)
      (by decide) (by decide)
  exact ⟨hrect, s, hs⟩

/-- C5: normalizing an all-zero vector leaves it all-zero; the divisor the
normalizer uses is never zero; every per-feature scale the standardizer
fits is nonzero (so no division by zero — the exact-arithmetic rendering of
"never produces NaN or Inf"); and standardizing leaves the entries of a
zero-variance column unchanged. -/
theorem zero_vector_safety :
    (∀ n : ℕ, normalizeRow (List.replicate n (0:ℝ)) = List.replicate n 0) ∧
    (∀ v : List ℝ, normDivisor v ≠ 0) ∧
    (∀ X : Mat, ∀ c ∈ fitScale X, c ≠ 0) ∧
    (∀ (X : Mat) (V i j : ℕ), (∀ r ∈ X, r.length = V) → i < X.length →
      j < V → popVar (col X j) = 0 →
      ((scalerTransform (fitScale X) X).getD i []).getD j 0 =
        (X.getD i []).getD j 0) := by
  refine ⟨?_, ?_, ?_, ?_⟩
  · intro n
    have hl1 : l1norm (List.replicate n (0:ℝ)) = 0 := by
      simp [l1norm, List.map_replicate]
    rw [normalizeRow, normDivisor, hl1, if_pos rfl]
    simp [List.map_replicate]
  · intro v
    rw [normDivisor]
    split
    · exact one_ne_zero
    · assumption
  · intro X c hc
    rcases List.mem_map.mp hc with ⟨j, _, rfl⟩
    exact handleZeros_ne_zero _
  · intro X V i j hrect hi hj hvar
    have hX : X ≠ [] := by
      intro h0
      rw [h0] at hi
      simp at hi
    have hhead : (X.headD []).length = V := by
      cases X with
      | nil => exact absurd rfl hX
      | cons r rs => exact hrect r (List.mem_cons_self r rs)
    rw [scalerTransform_entry X (fitScale X) i j hi
        (by rw [hrect (X.getD i []) (getD_mem_of_lt X [] i hi)]; exact hj)
        (by rw [fitScale_length, hhead]; exact hj),
      fitScale_getD X j (by rw [hhead]; exact hj), handleZeros_popStd,
      if_pos hvar, div_one]

/-- Witness for `zero_vector_safety`: the all-zero 2×1 matrix has a
zero-variance column whose entries standardization leaves unchanged. -/
theorem zero_vector_safety_witness :
    popVar (col ([[(0:ℝ)], [0]] : Mat) 0) = 0 ∧
    ((scalerTransform (fitScale [[(0:ℝ)], [0]]) [[(0:ℝ)], [0]]).getD 0 []).getD 0 0 =
      (([[(0:ℝ)], [0]] : Mat).getD 0 []).getD 0 0 := by
  have hv : popVar (col ([[(0:ℝ)], [0]] : Mat) 0) = 0 := by
    norm_num [popVar, mean, col]
  refine ⟨hv, ?_⟩
  refine zero_vector_safety.2.2.2 [[(0:ℝ)], [0]] 1 0 0 ?_ (by decide) (by decide) hv
  intro r hr
  rcases List.mem_cons.mp hr with rfl | hr
  · rfl
  · rcases List.mem_cons.mp hr with rfl | hr
    · rfl
    · simp at hr

/-- C3 (amended): `Delta.fit(X, y)` fails exactly when the training matrix
is degenerate — `N == 0` rows (or zero feature columns), rejected by the
scaler's input validation.  The label sequence `y` is stored as
`np.array(y)` without any length check, so a label sequence whose length
differs from `N` is accepted silently at fit time (the mismatch can only
surface later, during `predict`). -/
theorem Delta.fit_accepts (X : Mat) (y : List String) :
    ((∃ s, Delta.fit X y = Except.ok s) ↔ X ≠ [] ∧ (X.headD []).length ≠ 0) ∧
    (∀ s, Delta.fit X y = Except.ok s → s.train_y = y) := by
  constructor
  · by_cases h : X.length = 0 ∨ (X.headD []).length = 0
    · rw [Delta.fit, if_pos h]
      constructor
      · rintro ⟨s, hs⟩
        cases hs
      · rintro ⟨h1, h2⟩
        rcases h with h | h
        · exact absurd (List.length_eq_zero.mp h) h1
        · exact absurd h h2
    · rw [Delta.fit, if_neg h]
      push_neg at h
      refine ⟨fun _ => ⟨fun h0 => h.1 (by rw [h0]; rfl), h.2⟩, fun _ => ⟨_, rfl⟩⟩
  · intro s hs
    rw [Delta.fit] at hs
    split at hs
    · cases hs
    · cases hs
      rfl

/-- Witness for `Delta.fit_accepts`: a 1×1 training matrix with one label
is accepted and the label array is stored as given. -/
theorem Delta_fit_accepts_witness :
    (([[(3:ℝ)]] : Mat) ≠ [] ∧ (([[(3:ℝ)]] : Mat).headD []).length ≠ 0) ∧
    ∃ s, Delta.fit [[(3:ℝ)]] ["Z"] = Except.ok s ∧ s.train_y = ["Z"] := by
  have hside : ([[(3:ℝ)]] : Mat) ≠ [] ∧ (([[(3:ℝ)]] : Mat).headD []).length ≠ 0 :=
    ⟨by simp, by decide⟩
  obtain ⟨s, hs⟩ := (Delta.fit_accepts [[(3:ℝ)]] ["Z"]).1.mpr hside
  exact ⟨hside, s, hs, (Delta.fit_accepts [[(3:ℝ)]] ["Z"]).2 s hs⟩

/-- Counterexample to C3 as stated: fitting a 2-row training matrix with a
1-element label list succeeds — `fit` never compares `len(y)` with `N`, so
the mismatch is accepted silently instead of failing. -/
theorem Delta_fit_mismatch_counterexample :
    (∃ s, Delta.fit [[(1:ℝ)], [2]] ["A"] = Except.ok s) ∧
    (["A"] : List String).length ≠ ([[(1:ℝ)], [2]] : Mat).length := by
  constructor
  · refine ⟨⟨["A"], fitScale [[(1:ℝ)], [2]],
      scalerTransform (fitScale [[(1:ℝ)], [2]]) [[(1:ℝ)], [2]]⟩, ?_⟩
    rw [Delta.fit, if_neg (by decide)]
  · decide

/-- C1: on any fitted state with `N` reference rows and `N` labels,
`predict` returns one label per query row; the `i`-th returned label is
`y[j]` for the unique smallest index `j` minimizing
`metric(standardize(X_query[i]), reference[j])` — when several reference
rows are exactly equidistant, the lowest-index one wins (`np.argmin`
returns the first occurrence of the minimum). -/
theorem Delta.predict_nearest (s : Delta) (X : Mat)
    (metric : List ℝ → List ℝ → ℝ)
    (hW : ∀ r ∈ X, r.length = s.scale.length)
    (hlen : s.train_y.length = s.train_X.length)
    (hpos : 0 < s.train_X.length) :
    (Delta.predict s X metric).1.length = X.length ∧
    ∀ i, i < X.length → ∃ j, j < s.train_X.length ∧
      (∀ k, k < s.train_X.length →
        metric ((scalerTransform s.scale X).getD i []) (s.train_X.getD j []) ≤
          metric ((scalerTransform s.scale X).getD i []) (s.train_X.getD k [])) ∧
      (∀ k, k < j →
        metric ((scalerTransform s.scale X).getD i []) (s.train_X.getD j []) <
          metric ((scalerTransform s.scale X).getD i []) (s.train_X.getD k [])) ∧
      (Delta.predict s X metric).1.getD i "" = s.train_y.getD j "" := by
  constructor
  · simp [Delta.predict, scalerTransform]
  · intro i hi
    have hXt : i < (scalerTransform s.scale X).length := by
      simpa [scalerTransform] using hi
    have hdists : i < ((scalerTransform s.scale X).map
        (fun q => s.train_X.map (fun r => metric q r))).length := by
      simpa using hXt
    have hdrow :
        ((scalerTransform s.scale X).map
          (fun q => s.train_X.map (fun r => metric q r))).getD i [] =
        s.train_X.map
          (fun r => metric ((scalerTransform s.scale X).getD i []) r) :=
      getD_map _ _ i [] [] hXt
    have hdlen :
        (s.train_X.map
          (fun r => metric ((scalerTransform s.scale X).getD i []) r)).length =
        s.train_X.length := by
      simp
    have hdne :
        s.train_X.map
          (fun r => metric ((scalerTransform s.scale X).getD i []) r) ≠ [] := by
      intro h0
      rw [h0] at hdlen
      simp at hdlen
      omega
    have hdk : ∀ k, k < s.train_X.length →
        (s.train_X.map
          (fun r => metric ((scalerTransform s.scale X).getD i []) r)).getD k 0 =
        metric ((scalerTransform s.scale X).getD i []) (s.train_X.getD k []) := by
      intro k hk
      exact getD_map _ s.train_X k [] 0 hk
    set drow :=
      s.train_X.map (fun r => metric ((scalerTransform s.scale X).getD i []) r)
      with hdrow_def
    refine ⟨idxmin drow, ?_, ?_, ?_, ?_⟩
    · have := idxmin_lt_length drow hdne
      rw [hdlen] at this
      exact this
    · intro k hk
      have hjlt : idxmin drow < s.train_X.length := by
        have := idxmin_lt_length drow hdne
        rw [hdlen] at this
        exact this
      have h1 := idxmin_le drow k (by rw [hdlen]; exact hk)
      rw [hdk _ hjlt, hdk _ hk] at h1
      exact h1
    · intro k hk
      have hjlt : idxmin drow < s.train_X.length := by
        have := idxmin_lt_length drow hdne
        rw [hdlen] at this
        exact this
      have hklt : k < s.train_X.length := Nat.lt_trans hk hjlt
      have h1 := idxmin_first drow k hk
      rw [hdk _ hjlt, hdk _ hklt] at h1
      exact h1
    · show ((((scalerTransform s.scale X).map
          (fun q => s.train_X.map (fun r => metric q r))).map
            (fun dr => s.train_y.getD (idxmin dr) "")).getD i "") = _
      rw [getD_map _ _ i [] "" hdists, hdrow]

/-- Witness for `Delta.predict_nearest`: a fitted state with reference rows
`[[0]], [[2]]` and labels `A`, `B`; the single query `[[0]]` under the
city-block metric is classified, and the returned list has one label. -/
theorem Delta_predict_nearest_witness :
    0 < (Delta.mk ["A", "B"] [1] [[0], [2]]).train_X.length ∧
    (Delta.predict (Delta.mk ["A", "B"] [1] [[0], [2]]) [[0]] cityblock).1.length = 1 := by
  refine ⟨by decide, ?_⟩
  have h := Delta.predict_nearest (Delta.mk ["A", "B"] [1] [[0], [2]]) [[0]]
    cityblock
    (by
      intro r hr
      rw [List.mem_singleton] at hr
      subst hr
      rfl)
    rfl (by decide)
  exact h.1

/-- C8: `predict` leaves the fitted state untouched — the stored reference
matrix, label array and fitted per-feature scale after the call are the
ones from before it; the query transform reads only `s.scale`, the
statistics captured at fit time. -/
theorem Delta.predict_frame (s : Delta) (X : Mat)
    (metric : List ℝ → List ℝ → ℝ) :
    (Delta.predict s X metric).2.train_X = s.train_X ∧
    (Delta.predict s X metric).2.train_y = s.train_y ∧
    (Delta.predict s X metric).2.scale = s.scale :=
  ⟨rfl, rfl, rfl⟩

/-- C9: `predict` is deterministic and cache-free: a prior call, with any
query and any metric, leaves the next call's result unchanged, and two
calls presented with equal query matrices and equal metric arguments
return equal label sequences. -/
theorem Delta.predict_no_cache (s : Delta) (X1 : Mat)
    (m1 : List ℝ → List ℝ → ℝ) (X2 : Mat) (m2 : List ℝ → List ℝ → ℝ) :
    (Delta.predict (Delta.predict s X1 m1).2 X2 m2).1 =
      (Delta.predict s X2 m2).1 ∧
    ∀ X' m', X2 = X' → m2 = m' →
      (Delta.predict s X2 m2).1 = (Delta.predict s X' m').1 := by
  refine ⟨rfl, fun X' m' hX hm => ?_⟩
  rw [hX, hm]

/-- Witness for `Delta.predict_no_cache`: a city-block call preceded by a
different call on the same instance. -/
theorem Delta_predict_no_cache_witness :
    (Delta.predict (Delta.predict (Delta.mk ["A"] [1] [[0]]) [[1]] cityblock).2
        [[2]] cityblock).1 =
      (Delta.predict (Delta.mk ["A"] [1] [[0]]) [[2]] cityblock).1 ∧
    (Delta.predict (Delta.mk ["A"] [1] [[0]]) [[2]] cityblock).1 =
      (Delta.predict (Delta.mk ["A"] [1] [[0]]) [[2]] cityblock).1 :=
  ⟨(Delta.predict_no_cache (Delta.mk ["A"] [1] [[0]]) [[1]] cityblock
      [[2]] cityblock).1,
    (Delta.predict_no_cache (Delta.mk ["A"] [1] [[0]]) [[1]] cityblock
      [[2]] cityblock).2 [[2]] cityblock rfl rfl⟩
